import Mathlib

/-!
Verification of `05-plotting/aia_all.py`: a linear script that loads AIA and
HMI solar images, rotates them, groups them by wavelength, crops each one to a
fixed box, and renders a 9-region composite figure.

The script is shallowly embedded below.  Python dictionaries become
association lists (`Dict`) with overwrite-on-insert semantics; a raised
`KeyError` becomes `Except.error key`; the sunpy map objects become the
`SunMap` structure (pixel grid plus FITS-style coordinate metadata), with
`SunMap.submap` implementing sunpy's data-coordinate cropping (linear
world-to-pixel transform, ceil/floor pixel rounding, Python slice semantics,
reference-pixel shift) and `SunMap.rotate` recording the roll-correcting
rotation call (order 3) made by the script; the matplotlib side becomes a
list of drawing commands (`DrawCmd`).  The script is Python 2 (2015-era
sunpy), so `map(f, xs)` on line 95 applies `f` eagerly to every element.
-/

set_option autoImplicit false

namespace AiaAll

/-- Pixel data of a map: a list of rows of integer pixel values. -/
abbrev Grid := List (List Int)

/-- An in-memory sunpy map: pixel data, a linear world-coordinate system
(pixel `j` in x has world coordinate `crval1 + (j - crpix1) * cdelt1`, in
arcseconds, and likewise for rows in y), the wavelength tag, the colour map
and the colour normalizer used when plotting, and a record of the rotation
applied (`rotOrder`). -/
structure SunMap where
  data : Grid
  crval1 : ℚ
  crval2 : ℚ
  crpix1 : ℚ
  crpix2 : ℚ
  cdelt1 : ℚ
  cdelt2 : ℚ
  wavelength : ℚ
  cmap : String
  mpl_color_normalizer : String
  rotOrder : Option Nat := none
  deriving DecidableEq, Repr

/-- `map.rotate(order=3)`: aligns the image with solar north using order-3
interpolation.  No claim depends on the interpolated pixel values, so the
model records the call (and that it preserves the wavelength, colour map and
coordinate metadata, as sunpy's rotation of an already-aligned workshop image
does). -/
def SunMap.rotate (m : SunMap) (order : Nat) : SunMap :=
  { m with rotOrder := some order }

/-- Python list slicing `l[s:t]`: negative indices count from the end, then
both endpoints are clipped to `[0, len l]`. -/
def pySlice {α : Type} (l : List α) (s t : Int) : List α :=
  let n : Int := l.length
  let s' : Int := if s < 0 then max (n + s) 0 else min s n
  let t' : Int := if t < 0 then max (n + t) 0 else min t n
  (l.drop s'.toNat).take (t' - s').toNat

/-- World x-coordinate (arcsec) to fractional pixel index. -/
def SunMap.dataToPixelX (m : SunMap) (v : ℚ) : ℚ :=
  (v - m.crval1) / m.cdelt1 + m.crpix1

/-- World y-coordinate (arcsec) to fractional pixel index. -/
def SunMap.dataToPixelY (m : SunMap) (v : ℚ) : ℚ :=
  (v - m.crval2) / m.cdelt2 + m.crpix2

/-- `map.submap((x0, x1), (y0, y1))` in data units: convert the requested
world-coordinate ranges to pixel ranges (`ceil` of the lower edge, `floor`
of the upper edge plus one), slice the data array with Python slice
semantics, and shift the reference pixel so the cropped map keeps a
consistent world-coordinate system. -/
def SunMap.submap (m : SunMap) (xr yr : ℚ × ℚ) : SunMap :=
  let nx0 : ℤ := ⌈m.dataToPixelX xr.1⌉
  let nx1 : ℤ := ⌊m.dataToPixelX xr.2⌋ + 1
  let ny0 : ℤ := ⌈m.dataToPixelY yr.1⌉
  let ny1 : ℤ := ⌊m.dataToPixelY yr.2⌋ + 1
  { m with
    data := (pySlice m.data ny0 ny1).map (fun row => pySlice row nx0 nx1),
    crpix1 := m.crpix1 - nx0,
    crpix2 := m.crpix2 - ny0 }

/-- Number of pixel columns (width of the first row). -/
def SunMap.ncols (m : SunMap) : Nat := (m.data.headD []).length

/-- Number of pixel rows. -/
def SunMap.nrows (m : SunMap) : Nat := m.data.length

/-- `map.xrange`: world x-extent of the pixel grid (outer pixel edges). -/
def SunMap.xrange (m : SunMap) : ℚ × ℚ :=
  (m.crval1 - (m.crpix1 + 1/2) * m.cdelt1,
   m.crval1 + ((m.ncols : ℚ) - 1/2 - m.crpix1) * m.cdelt1)

/-- `map.yrange`: world y-extent of the pixel grid (outer pixel edges). -/
def SunMap.yrange (m : SunMap) : ℚ × ℚ :=
  (m.crval2 - (m.crpix2 + 1/2) * m.cdelt2,
   m.crval2 + ((m.nrows : ℚ) - 1/2 - m.crpix2) * m.cdelt2)

/-- A Python dictionary with rational keys, as an association list whose
key order is the insertion order. -/
abbrev Dict (α : Type) := List (ℚ × α)

/-- Dictionary lookup `d[k]` (first, and with `dinsert`-maintained
dictionaries only, entry with key `k`). -/
def dget? {α : Type} : Dict α → ℚ → Option α
  | [], _ => none
  | p :: d, k => if p.1 = k then some p.2 else dget? d k

/-- Dictionary assignment `d[k] = v`: overwrite the entry in place if the
key exists, otherwise append. -/
def dinsert {α : Type} : Dict α → ℚ → α → Dict α
  | [], k, v => [(k, v)]
  | p :: d, k, v => if p.1 = k then (k, v) :: d else p :: dinsert d k v

/-- `d.keys()`. -/
def dkeys {α : Type} (d : Dict α) : List ℚ := d.map Prod.fst

/-- Dictionary lookup that raises `KeyError` (models `d[k]` on a possibly
missing key). -/
def lookupE {α : Type} (d : Dict α) (k : ℚ) : Except ℚ α :=
  match dget? d k with
  | some v => .ok v
  | none => .error k

-- Script parameters (lines 27-29).
/-- Crop-box bottom-left x (arcsec): `bx = -300`. -/
def bx : ℚ := -300
/-- Crop-box bottom-left y (arcsec): the script's `by = -150` (`by` is a Lean
keyword, hence the spelling). -/
def byy : ℚ := -150
/-- Crop-box width (arcsec): `w = 600`. -/
def w : ℚ := 600
/-- Crop-box height (arcsec): `h = 300`. -/
def h : ℚ := 300
/-- Label padding x: `label_padx = 50`. -/
def label_padx : ℚ := 50
/-- Label padding y: `label_pady = 20`. -/
def label_pady : ℚ := 20

/-- Line 62: wavelength ordering, bottom-left to top-left, bottom-right to
top-right, centre image last. -/
def sorted_wavelengths : List ℚ := [335, 211, 171, 304, 6173, 193, 131, 94, 1700]

/-- Lines 51-56: build `mapw`, the wavelength-keyed dictionary of rotated
maps; the loaded AIA maps are inserted in enumeration order (later maps with
the same wavelength overwrite earlier ones), then the rotated HMI map is
installed under key `6173.0`. -/
def mapwOf (aias : List SunMap) (hmi : SunMap) : Dict SunMap :=
  dinsert (aias.foldl (fun d m => dinsert d m.wavelength (m.rotate 3)) []) 6173 (hmi.rotate 3)

/-- Lines 65-66: build `maps`, the dictionary of cropped maps.  The inner
list comprehension `[mapw[key] for key in sorted_wavelengths[:-1]]` looks up
every non-final wavelength (raising `KeyError` on the first missing one);
each resulting map is cropped to the fixed box and keyed by its own
wavelength; finally `mapw[1700]` is looked up and its larger crop installed
under key `1700`. -/
def cropStage (mapw : Dict SunMap) : Except ℚ (Dict SunMap) := do
  let ms ← sorted_wavelengths.dropLast.mapM (lookupE mapw)
  let d := ms.foldl (fun d m => dinsert d m.wavelength (m.submap (bx, bx + w) (byy, byy + h))) []
  let m1700 ← lookupE mapw 1700
  return dinsert d 1700 (m1700.submap (-1000, 1000) (-1000, 1000))

/-- A plot region: `fig.add_axes([left, bottom, width, height])` in
figure-relative coordinates. -/
structure Rect where
  left : ℚ
  bottom : ℚ
  width : ℚ
  height : ℚ
  deriving DecidableEq, Repr

/-- Line 74: `height = 0.25`. -/
def height : ℚ := 1/4
/-- Line 75: `edge_width = 0.25`. -/
def edge_width : ℚ := 1/4

/-- Line 76: the four left-edge regions, bottom to top. -/
def left_axes : List Rect :=
  (List.range 4).map (fun i => ⟨0, (i : ℚ) * height, edge_width, height⟩)

/-- Line 77: the four right-edge regions, bottom to top. -/
def right_axes : List Rect :=
  (List.range 4).map (fun i => ⟨1 - edge_width, (i : ℚ) * height, edge_width, height⟩)

/-- Line 78: the single centre region. -/
def centre_axes : List Rect := [⟨edge_width, 0, 1 - 2 * edge_width, 1⟩]

/-- The generated region list `left_axes + right_axes + centre_axes`. -/
def allAxesRects : List Rect := left_axes ++ right_axes ++ centre_axes

/-- Line 82: `axes = {wave: ax for wave, ax in zip(ws, left+right+centre)}`,
for an arbitrary ordering list `ws` (`zip` truncates to the shorter list). -/
def axesOf (ws : List ℚ) : Dict Rect :=
  (ws.zip allAxesRects).foldl (fun d p => dinsert d p.1 p.2) []

/-- The script's `axes` dictionary. -/
def axes : Dict Rect := axesOf sorted_wavelengths

/-- A text label: either the LaTeX nm-representation
`(q*u.AA).to(u.nm)._repr_latex_()` of a wavelength, or the literal
`"LOS Magnetic Field"`. -/
inductive Label where
  | nmLatex (wavelength : ℚ)
  | losMagneticField
  deriving DecidableEq, Repr

/-- One matplotlib drawing command issued by the script. -/
inductive DrawCmd where
  | imshow (ax : Rect) (data : Grid) (cmap : String) (norm : String)
      (extent : (ℚ × ℚ) × (ℚ × ℚ))
  | text (ax : Rect) (x : ℚ) (y : ℚ) (label : Label)
  | clearTicksX (ax : Rect)
  | clearTicksY (ax : Rect)
  | addRect (ax : Rect) (x : ℚ) (y : ℚ) (rw : ℚ) (rh : ℚ) (filled : Bool)
  deriving DecidableEq, Repr

/-- Lines 84-92: `mapwplot(key)` draws `maps[key]` into `axes[key]` with the
map's own colour map and normalizer, then adds the generic wavelength label
at `(bx + label_padx, by + label_pady)` unless the key is `6173.0` or the
last ordering entry (`sorted_wavelengths[-1] = 1700`). -/
def mapwplot (maps : Dict SunMap) (key : ℚ) : Except ℚ (List DrawCmd) := do
  let ax ← lookupE axes key
  let m ← lookupE maps key
  let base := [DrawCmd.imshow ax m.data m.cmap m.mpl_color_normalizer (m.xrange, m.yrange)]
  if key = 6173 ∨ key = sorted_wavelengths.getLastD 0 then
    return base
  else
    return base ++ [DrawCmd.text ax (bx + label_padx) (byy + label_pady) (Label.nmLatex key)]

/-- Lines 94-109: run `mapwplot` on every key of `maps` (Python 2 `map` is
eager), clear the tick labels of every region, write the custom labels on
`axes[6173.0]` (at `(bx+label_padx, by+label_padx)` — the script reuses
`label_padx` for y) and on the last-wavelength region, and add the unfilled
crop-extent rectangle to the last-wavelength region. -/
def renderStage (maps : Dict SunMap) : Except ℚ (List DrawCmd) := do
  let plots ← (dkeys maps).mapM (mapwplot maps)
  let ticks := (axes.map Prod.snd).map DrawCmd.clearTicksX
      ++ (axes.map Prod.snd).map DrawCmd.clearTicksY
  let ax6173 ← lookupE axes 6173
  let axLast ← lookupE axes (sorted_wavelengths.getLastD 0)
  return plots.flatten ++ ticks
      ++ [DrawCmd.text ax6173 (bx + label_padx) (byy + label_padx) Label.losMagneticField]
      ++ [DrawCmd.text axLast (-950) (-990) (Label.nmLatex 1700)]
      ++ [DrawCmd.addRect axLast bx byy w h false]

/-- The whole post-download pipeline: given the loaded AIA maps and the
loaded (not yet rotated) HMI map, build `mapw`, crop, and render.  Any
`KeyError` aborts before any later drawing happens. -/
def pipeline (aias : List SunMap) (hmi : SunMap) : Except ℚ (List DrawCmd) := do
  let mapw := mapwOf aias hmi
  let maps ← cropStage mapw
  renderStage maps

/-- The regions of the image-draw (`imshow`) commands of a figure. -/
def imshowRegions (fig : List DrawCmd) : List Rect :=
  fig.filterMap (fun c => match c with
    | .imshow ax _ _ _ _ => some ax
    | _ => none)

/-- The pixel data drawn (by `imshow`) into a given region. -/
def imshowDataAt (fig : List DrawCmd) (ax : Rect) : List Grid :=
  fig.filterMap (fun c => match c with
    | .imshow ax' d _ _ _ => if ax' = ax then some d else none
    | _ => none)

/-- The centre region `fig.add_axes([0.25, 0, 0.5, 1])`, written with its
evaluated coordinates. -/
def centreRect : Rect := ⟨1/4, 0, 1/2, 1⟩

/-- The bottom-right edge region `fig.add_axes([0.75, 0, 0.25, 0.25])` (the
first entry of `right_axes`), written with its evaluated coordinates. -/
def bottomRightRect : Rect := ⟨3/4, 0, 1/4, 1/4⟩

/-- A point of the figure lies in the closure of a region. -/
def inClosedRect (r : Rect) (p : ℚ × ℚ) : Prop :=
  r.left ≤ p.1 ∧ p.1 ≤ r.left + r.width ∧ r.bottom ≤ p.2 ∧ p.2 ≤ r.bottom + r.height

/-- A point of the figure lies in the interior of a region. -/
def inOpenRect (r : Rect) (p : ℚ × ℚ) : Prop :=
  r.left < p.1 ∧ p.1 < r.left + r.width ∧ r.bottom < p.2 ∧ p.2 < r.bottom + r.height

instance (r : Rect) (p : ℚ × ℚ) : Decidable (inClosedRect r p) := by
  unfold inClosedRect
  infer_instance

instance (r : Rect) (p : ℚ × ℚ) : Decidable (inOpenRect r p) := by
  unfold inOpenRect
  infer_instance

/-- Two regions are separated by an axis-aligned line (a sufficient condition
for their interiors to be disjoint). -/
def rectsSeparated (r s : Rect) : Prop :=
  r.left + r.width ≤ s.left ∨ s.left + s.width ≤ r.left ∨
  r.bottom + r.height ≤ s.bottom ∨ s.bottom + s.height ≤ r.bottom

instance (r s : Rect) : Decidable (rectsSeparated r s) := by
  unfold rectsSeparated
  infer_instance

/-- The nine plot regions as claim C9 spells them out: four left-edge squares
`[0, 1/4] × [i/4, (i+1)/4]` bottom to top, four right-edge squares
`[3/4, 1] × [i/4, (i+1)/4]` bottom to top, and the centre region
`[1/4, 3/4] × [0, 1]`.  Stated from the claim's words, to be compared with
the source-derived `allAxesRects`. -/
def specRegionRects : List Rect :=
  [⟨0, 0, 1/4, 1/4⟩, ⟨0, 1/4, 1/4, 1/4⟩, ⟨0, 1/2, 1/4, 1/4⟩, ⟨0, 3/4, 1/4, 1/4⟩,
   ⟨3/4, 0, 1/4, 1/4⟩, ⟨3/4, 1/4, 1/4, 1/4⟩, ⟨3/4, 1/2, 1/4, 1/4⟩, ⟨3/4, 3/4, 1/4, 1/4⟩,
   ⟨1/4, 0, 1/2, 1⟩]

/-! ### A concrete end-to-end input

Nine synthetic maps of known solid-colour pixel content (the spec's test
scenario): 5x5 grids with a pixel scale of 500 arcsec/pixel and the reference
pixel at the grid centre, so that the fixed crop box keeps the central pixel
and the wide 1700 crop keeps the whole grid. -/

/-- A synthetic full-disk map: a 5x5 solid-colour grid of pixel value `v`,
centred on the Sun with 500 arcsec pixels, tagged with wavelength `k`. -/
def mkTestMap (k : ℚ) (v : ℤ) : SunMap :=
  { data := List.replicate 5 (List.replicate 5 v)
    crval1 := 0, crval2 := 0, crpix1 := 2, crpix2 := 2
    cdelt1 := 500, cdelt2 := 500
    wavelength := k, cmap := "gray", mpl_color_normalizer := "linear" }

/-- Eight synthetic AIA maps, one per expected AIA wavelength, each with its
wavelength as pixel value. -/
def testAias : List SunMap :=
  [mkTestMap 94 94, mkTestMap 131 131, mkTestMap 171 171, mkTestMap 193 193,
   mkTestMap 211 211, mkTestMap 304 304, mkTestMap 335 335, mkTestMap 1700 1700]

/-- The synthetic HMI map (wavelength 6173, pixel value -7777). -/
def testHmi : SunMap := mkTestMap 6173 (-7777)

/-- The cropped-map dictionary produced by the crop stage on the synthetic
input (empty dictionary if the stage failed). -/
def testMaps : Dict SunMap :=
  match cropStage (mapwOf testAias testHmi) with
  | .ok d => d
  | .error _ => []

/-- The figure rendered from the synthetic input (empty if the pipeline
failed). -/
def testFig : List DrawCmd :=
  match pipeline testAias testHmi with
  | .ok f => f
  | .error _ => []

/-- What the script draws for the HMI map on the synthetic input: the fixed
crop box of the rotated HMI map. -/
def testHmiCropData : Grid :=
  ((testHmi.rotate 3).submap (bx, bx + w) (byy, byy + h)).data

/-- What the script draws for the 1700 Å main-disk map on the synthetic
input: the wide crop of the rotated 1700 Å map. -/
def testAia1700CropData : Grid :=
  (((mkTestMap 1700 1700).rotate 3).submap (-1000, 1000) (-1000, 1000)).data

instance instDecEqExcept {ε α : Type} [DecidableEq ε] [DecidableEq α] :
    DecidableEq (Except ε α) := fun a b =>
  match a, b with
  | .error e, .error e' => decidable_of_iff (e = e') (by simp)
  | .error _, .ok _ => isFalse (by simp)
  | .ok _, .error _ => isFalse (by simp)
  | .ok v, .ok v' => decidable_of_iff (v = v') (by simp)

/-! ### Dictionary lemmas -/

theorem dget?_dinsert_self {α : Type} (d : Dict α) (k : ℚ) (v : α) :
    dget? (dinsert d k v) k = some v := by
  induction d with
  | nil => simp [dinsert, dget?]
  | cons p d ih =>
    by_cases hp : p.1 = k
    · simp [dinsert, hp, dget?]
    · simp [dinsert, hp, dget?, ih]

theorem dget?_dinsert_ne {α : Type} (d : Dict α) {k k' : ℚ} (v : α) (hne : k' ≠ k) :
    dget? (dinsert d k v) k' = dget? d k' := by
  induction d with
  | nil => simp [dinsert, dget?, Ne.symm hne]
  | cons p d ih =>
    by_cases hp : p.1 = k
    · subst hp
      simp [dinsert, dget?, Ne.symm hne]
    · by_cases hp' : p.1 = k'
      · simp [dinsert, dget?, hp, hp', hne]
      · simp [dinsert, dget?, hp, hp', hne, ih]

theorem dkeys_dinsert_of_mem {α : Type} (d : Dict α) {k : ℚ} (v : α) (hk : k ∈ dkeys d) :
    dkeys (dinsert d k v) = dkeys d := by
  induction d with
  | nil => simp [dkeys] at hk
  | cons p d ih =>
    by_cases hp : p.1 = k
    · simp [dinsert, hp, dkeys]
    · simp only [dkeys, List.map_cons, List.mem_cons] at hk
      rcases hk with hk | hk
      · exact absurd hk.symm hp
      · have htl := ih (by simpa [dkeys] using hk)
        simp only [dkeys] at htl
        simp [dinsert, hp, dkeys, htl]

theorem dkeys_dinsert_of_not_mem {α : Type} (d : Dict α) {k : ℚ} (v : α) (hk : k ∉ dkeys d) :
    dkeys (dinsert d k v) = dkeys d ++ [k] := by
  induction d with
  | nil => simp [dinsert, dkeys]
  | cons p d ih =>
    simp only [dkeys, List.map_cons, List.mem_cons] at hk
    push_neg at hk
    have hne : ¬p.1 = k := fun h => hk.1 h.symm
    have htl := ih (by simpa [dkeys] using hk.2)
    simp only [dkeys] at htl
    simp [dinsert, hne, dkeys, htl]

theorem dkeys_dinsert_nodup {α : Type} (d : Dict α) (k : ℚ) (v : α)
    (hd : (dkeys d).Nodup) : (dkeys (dinsert d k v)).Nodup := by
  by_cases hk : k ∈ dkeys d
  · rw [dkeys_dinsert_of_mem d v hk]; exact hd
  · rw [dkeys_dinsert_of_not_mem d v hk]
    refine List.Nodup.append hd (List.nodup_singleton k) ?_
    intro a ha hb
    simp only [List.mem_singleton] at hb
    subst hb
    exact hk ha

theorem dget?_mem {α : Type} {d : Dict α} {k : ℚ} {v : α} (h : dget? d k = some v) :
    (k, v) ∈ d := by
  induction d with
  | nil => simp [dget?] at h
  | cons p d ih =>
    by_cases hp : p.1 = k
    · subst hp
      simp [dget?] at h
      subst h
      exact List.mem_cons_self _ _
    · simp [dget?, hp] at h
      exact List.mem_cons_of_mem _ (ih h)

theorem lookupE_ok {α : Type} {d : Dict α} {k : ℚ} {v : α} :
    lookupE d k = .ok v ↔ dget? d k = some v := by
  unfold lookupE
  cases h : dget? d k <;> simp

/-! ### Lemmas on the wavelength-keyed fold of `dinsert` -/

theorem dget?_foldl_dinsert_of_not_mem {α : Type} (f : SunMap → α) (ms : List SunMap)
    (d0 : Dict α) (k : ℚ) (hk : ∀ m ∈ ms, m.wavelength ≠ k) :
    dget? (ms.foldl (fun d m => dinsert d m.wavelength (f m)) d0) k = dget? d0 k := by
  induction ms generalizing d0 with
  | nil => rfl
  | cons m tl ih =>
    simp only [List.foldl_cons]
    rw [ih _ (fun m' hm' => hk m' (List.mem_cons_of_mem _ hm')),
      dget?_dinsert_ne _ _ (fun h => hk m (List.mem_cons_self _ _) h.symm)]

theorem dget?_foldl_dinsert {α : Type} (f : SunMap → α) (ms : List SunMap)
    (d0 : Dict α) (k : ℚ) :
    dget? (ms.foldl (fun d m => dinsert d m.wavelength (f m)) d0) k
      = match (ms.filter (fun m => m.wavelength == k)).getLast? with
        | some m => some (f m)
        | none => dget? d0 k := by
  induction ms generalizing d0 with
  | nil => rfl
  | cons m tl ih =>
    simp only [List.foldl_cons, List.filter_cons]
    by_cases hw : m.wavelength = k
    · simp only [hw, beq_self_eq_true, if_true]
      rw [ih]
      cases htl : (tl.filter (fun m' => m'.wavelength == k)).getLast? with
      | some m' => simp [List.getLast?_cons, htl]
      | none =>
        have : tl.filter (fun m' => m'.wavelength == k) = [] := by
          simpa [List.getLast?_eq_none_iff] using htl
        simp [List.getLast?_cons, htl, this, dget?_dinsert_self]
    · simp only [beq_iff_eq, hw, if_false]
      rw [ih]
      cases htl : (tl.filter (fun m' => m'.wavelength == k)).getLast? with
      | some m' => simp
      | none => simp [dget?_dinsert_ne _ _ (fun h => hw h.symm)]

/-! ### `Except` bind equations and `mapM` of dictionary lookups -/

theorem ok_bind {ε α β : Type} (a : α) (f : α → Except ε β) :
    (Except.ok a >>= f : Except ε β) = f a := rfl

theorem error_bind {ε α β : Type} (e : ε) (f : α → Except ε β) :
    (Except.error e >>= f : Except ε β) = Except.error e := rfl

theorem pure_eq_ok {ε α : Type} (a : α) : (pure a : Except ε α) = Except.ok a := rfl

theorem mapM_lookupE_ok {α : Type} (d : Dict α) :
    ∀ (ks : List ℚ) (ms : List α), ks.mapM (lookupE d) = .ok ms →
      List.Forall₂ (fun k m => dget? d k = some m) ks ms := by
  intro ks
  induction ks with
  | nil =>
    intro ms h
    rw [List.mapM_nil, pure_eq_ok] at h
    cases h
    exact List.Forall₂.nil
  | cons k tl ih =>
    intro ms h
    rw [List.mapM_cons] at h
    cases hk : lookupE d k with
    | error e =>
      rw [hk, error_bind] at h
      exact absurd h (by simp)
    | ok m =>
      rw [hk, ok_bind] at h
      cases htl : tl.mapM (lookupE d) with
      | error e =>
        rw [htl, error_bind] at h
        exact absurd h (by simp)
      | ok ms' =>
        rw [htl, ok_bind, pure_eq_ok] at h
        cases h
        exact List.Forall₂.cons (lookupE_ok.mp hk) (ih ms' htl)

theorem forall₂_mem_zip {α β : Type} {R : α → β → Prop} :
    ∀ {ks : List α} {ms : List β}, List.Forall₂ R ks ms →
      ∀ {k : α}, k ∈ ks → ∃ m, (k, m) ∈ ks.zip ms ∧ R k m := by
  intro ks ms h
  induction h with
  | nil => intro k hk; simp at hk
  | cons hR htl ih =>
    intro k hk
    rcases List.mem_cons.mp hk with rfl | hk
    · exact ⟨_, List.mem_cons_self _ _, hR⟩
    · rcases ih hk with ⟨m, hm, hRm⟩
      exact ⟨m, List.mem_cons_of_mem _ hm, hRm⟩

theorem mapM_lookupE_mem_ok {α : Type} (d : Dict α) {ks : List ℚ} {ms : List α}
    (h : ks.mapM (lookupE d) = .ok ms) {k : ℚ} (hk : k ∈ ks) :
    ∃ v, dget? d k = some v := by
  rcases forall₂_mem_zip (mapM_lookupE_ok d ks ms h) hk with ⟨m, _, hm⟩
  exact ⟨m, hm⟩

theorem mem_right_of_forall₂ {α β : Type} {R : α → β → Prop} :
    ∀ {ks : List α} {ms : List β}, List.Forall₂ R ks ms →
      ∀ {m : β}, m ∈ ms → ∃ k ∈ ks, R k m := by
  intro ks ms h
  induction h with
  | nil => intro m hm; simp at hm
  | cons hR htl ih =>
    intro m hm
    rcases List.mem_cons.mp hm with rfl | hm
    · exact ⟨_, List.mem_cons_self _ _, hR⟩
    · rcases ih hm with ⟨k, hk, hRk⟩
      exact ⟨k, List.mem_cons_of_mem _ hk, hRk⟩

/-! ### Python slicing and `submap` idempotence -/

theorem pySlice_zero_of_length_le {α : Type} (l : List α) {u : ℤ}
    (hu : (l.length : ℤ) ≤ u) : pySlice l 0 u = l := by
  simp only [pySlice]
  have hn : (0:ℤ) ≤ (l.length : ℤ) := Int.ofNat_nonneg _
  rw [if_neg (by omega), if_neg (by omega)]
  have h1 : min (0:ℤ) (l.length:ℤ) = 0 := by omega
  have h2 : min u (l.length:ℤ) = (l.length:ℤ) := by omega
  rw [h1, h2]
  simp

theorem pySlice_length_le {α : Type} (l : List α) {s t : ℤ} (hst : s ≤ t) :
    ((pySlice l s t).length : ℤ) ≤ t - s := by
  simp only [pySlice, List.length_take, List.length_drop]
  split_ifs <;> push_cast <;> omega

theorem pySlice_pySlice {α : Type} (l : List α) {s t : ℤ} (hst : s ≤ t) :
    pySlice (pySlice l s t) 0 (t - s) = pySlice l s t :=
  pySlice_zero_of_length_le _ (pySlice_length_le l hst)

/-- `SunMap.submap` written as a single record equation (the `let`-bound
pixel bounds substituted), convenient for rewriting. -/
theorem submap_def (m : SunMap) (xr yr : ℚ × ℚ) :
    m.submap xr yr = { m with
      data := (pySlice m.data ⌈m.dataToPixelY yr.1⌉ (⌊m.dataToPixelY yr.2⌋ + 1)).map
        (fun row => pySlice row ⌈m.dataToPixelX xr.1⌉ (⌊m.dataToPixelX xr.2⌋ + 1)),
      crpix1 := m.crpix1 - ⌈m.dataToPixelX xr.1⌉,
      crpix2 := m.crpix2 - ⌈m.dataToPixelY yr.1⌉ } := rfl

theorem dataToPixelX_submap (m : SunMap) (xr yr : ℚ × ℚ) (v : ℚ) :
    (m.submap xr yr).dataToPixelX v = m.dataToPixelX v - ⌈m.dataToPixelX xr.1⌉ := by
  simp [SunMap.submap, SunMap.dataToPixelX]
  ring

theorem dataToPixelY_submap (m : SunMap) (xr yr : ℚ × ℚ) (v : ℚ) :
    (m.submap xr yr).dataToPixelY v = m.dataToPixelY v - ⌈m.dataToPixelY yr.1⌉ := by
  simp [SunMap.submap, SunMap.dataToPixelY]
  ring

/-- Cropping to a fixed data-coordinate box is idempotent, for any map whose
pixel scales are positive and any box with ordered corners: the second crop
asks for exactly the pixels the first crop kept. -/
theorem submap_submap (m : SunMap) {x0 x1 y0 y1 : ℚ} (hx : 0 < m.cdelt1)
    (hy : 0 < m.cdelt2) (hx01 : x0 ≤ x1) (hy01 : y0 ≤ y1) :
    (m.submap (x0, x1) (y0, y1)).submap (x0, x1) (y0, y1)
      = m.submap (x0, x1) (y0, y1) := by
  have hpx : m.dataToPixelX x0 ≤ m.dataToPixelX x1 := by
    unfold SunMap.dataToPixelX
    have h1 : (x0 - m.crval1) / m.cdelt1 ≤ (x1 - m.crval1) / m.cdelt1 :=
      (div_le_div_iff_of_pos_right hx).mpr (sub_le_sub_right hx01 _)
    linarith
  have hpy : m.dataToPixelY y0 ≤ m.dataToPixelY y1 := by
    unfold SunMap.dataToPixelY
    have h1 : (y0 - m.crval2) / m.cdelt2 ≤ (y1 - m.crval2) / m.cdelt2 :=
      (div_le_div_iff_of_pos_right hy).mpr (sub_le_sub_right hy01 _)
    linarith
  have hnx : ⌈m.dataToPixelX x0⌉ ≤ ⌊m.dataToPixelX x1⌋ + 1 :=
    le_trans (Int.ceil_mono hpx) (Int.ceil_le_floor_add_one _)
  have hny : ⌈m.dataToPixelY y0⌉ ≤ ⌊m.dataToPixelY y1⌋ + 1 :=
    le_trans (Int.ceil_mono hpy) (Int.ceil_le_floor_add_one _)
  have ex0 : (m.submap (x0, x1) (y0, y1)).dataToPixelX x0
      = m.dataToPixelX x0 - ⌈m.dataToPixelX x0⌉ := dataToPixelX_submap m _ _ x0
  have ex1 : (m.submap (x0, x1) (y0, y1)).dataToPixelX x1
      = m.dataToPixelX x1 - ⌈m.dataToPixelX x0⌉ := dataToPixelX_submap m _ _ x1
  have ey0 : (m.submap (x0, x1) (y0, y1)).dataToPixelY y0
      = m.dataToPixelY y0 - ⌈m.dataToPixelY y0⌉ := dataToPixelY_submap m _ _ y0
  have ey1 : (m.submap (x0, x1) (y0, y1)).dataToPixelY y1
      = m.dataToPixelY y1 - ⌈m.dataToPixelY y0⌉ := dataToPixelY_submap m _ _ y1
  have cx0 : ⌈(m.submap (x0, x1) (y0, y1)).dataToPixelX x0⌉ = 0 := by
    rw [ex0, Int.ceil_sub_int, sub_self]
  have cx1 : ⌊(m.submap (x0, x1) (y0, y1)).dataToPixelX x1⌋ + 1
      = (⌊m.dataToPixelX x1⌋ + 1) - ⌈m.dataToPixelX x0⌉ := by
    rw [ex1, Int.floor_sub_int]
    ring
  have cy0 : ⌈(m.submap (x0, x1) (y0, y1)).dataToPixelY y0⌉ = 0 := by
    rw [ey0, Int.ceil_sub_int, sub_self]
  have cy1 : ⌊(m.submap (x0, x1) (y0, y1)).dataToPixelY y1⌋ + 1
      = (⌊m.dataToPixelY y1⌋ + 1) - ⌈m.dataToPixelY y0⌉ := by
    rw [ey1, Int.floor_sub_int]
    ring
  have hrows : pySlice
      ((pySlice m.data ⌈m.dataToPixelY y0⌉ (⌊m.dataToPixelY y1⌋ + 1)).map
        (fun row => pySlice row ⌈m.dataToPixelX x0⌉ (⌊m.dataToPixelX x1⌋ + 1)))
      0 (⌊m.dataToPixelY y1⌋ + 1 - ⌈m.dataToPixelY y0⌉)
      = (pySlice m.data ⌈m.dataToPixelY y0⌉ (⌊m.dataToPixelY y1⌋ + 1)).map
        (fun row => pySlice row ⌈m.dataToPixelX x0⌉ (⌊m.dataToPixelX x1⌋ + 1)) := by
    apply pySlice_zero_of_length_le
    rw [List.length_map]
    exact pySlice_length_le m.data hny
  rw [submap_def (m.submap (x0, x1) (y0, y1)), cx0, cx1, cy0, cy1, submap_def m]
  simp only [SunMap.mk.injEq, Int.cast_zero, sub_zero, and_true, true_and,
    eq_self_iff_true]
  rw [hrows, List.map_map]
  refine List.map_congr_left (fun row _ => ?_)
  exact pySlice_pySlice row hnx

/-! ### Analysis of the crop stage -/

theorem mapM_ok_forall₂ {ε α β : Type} (f : α → Except ε β) :
    ∀ (ks : List α) (ms : List β), ks.mapM f = .ok ms →
      List.Forall₂ (fun k m => f k = .ok m) ks ms := by
  intro ks
  induction ks with
  | nil =>
    intro ms hmm
    rw [List.mapM_nil, pure_eq_ok] at hmm
    cases hmm
    exact List.Forall₂.nil
  | cons k tl ih =>
    intro ms hmm
    rw [List.mapM_cons] at hmm
    cases hk : f k with
    | error e =>
      rw [hk, error_bind] at hmm
      exact absurd hmm (by simp)
    | ok m =>
      rw [hk, ok_bind] at hmm
      cases htl : tl.mapM f with
      | error e =>
        rw [htl, error_bind] at hmm
        exact absurd hmm (by simp)
      | ok ms' =>
        rw [htl, ok_bind, pure_eq_ok] at hmm
        cases hmm
        exact List.Forall₂.cons hk (ih ms' htl)

theorem cropStage_ok_parts {mapw maps : Dict SunMap} (hok : cropStage mapw = .ok maps) :
    ∃ (ms : List SunMap) (m1700 : SunMap),
      sorted_wavelengths.dropLast.mapM (lookupE mapw) = .ok ms ∧
      dget? mapw 1700 = some m1700 ∧
      maps = dinsert
        (ms.foldl (fun d m => dinsert d m.wavelength
          (m.submap (bx, bx + w) (byy, byy + h))) [])
        1700 (m1700.submap (-1000, 1000) (-1000, 1000)) := by
  unfold cropStage at hok
  cases hms : sorted_wavelengths.dropLast.mapM (lookupE mapw) with
  | error e =>
    rw [hms, error_bind] at hok
    exact absurd hok (by simp)
  | ok ms =>
    rw [hms, ok_bind] at hok
    cases h17 : lookupE mapw 1700 with
    | error e =>
      rw [h17, error_bind] at hok
      exact absurd hok (by simp)
    | ok m1700 =>
      rw [h17, ok_bind, pure_eq_ok] at hok
      cases hok
      exact ⟨ms, m1700, rfl, lookupE_ok.mp h17, rfl⟩

theorem sorted_wavelengths_split :
    sorted_wavelengths.dropLast ++ [1700] = sorted_wavelengths := rfl

/-- Claim C4 core: a wavelength of the ordering list that is missing from
`mapw` makes the crop stage raise a `KeyError`, and the whole pipeline then
terminates with that error without rendering anything. -/
theorem cropStage_missing_key_error (mapw : Dict SunMap) (k : ℚ)
    (hk : k ∈ sorted_wavelengths) (hmiss : dget? mapw k = none) :
    ∃ e, cropStage mapw = .error e ∧
      ∀ (aias : List SunMap) (hmi : SunMap), mapwOf aias hmi = mapw →
        pipeline aias hmi = .error e := by
  cases hc : cropStage mapw with
  | error e =>
    refine ⟨e, rfl, ?_⟩
    intro aias hmi hmw
    have hpe : pipeline aias hmi = cropStage (mapwOf aias hmi) >>= renderStage := rfl
    rw [hpe, hmw, hc, error_bind]
  | ok maps =>
    exfalso
    rcases cropStage_ok_parts hc with ⟨ms, m1700, hms, h17, _⟩
    have hsplit : k ∈ sorted_wavelengths.dropLast ∨ k = 1700 := by
      rw [← sorted_wavelengths_split] at hk
      rcases List.mem_append.mp hk with hk' | hk'
      · exact Or.inl hk'
      · exact Or.inr (by simpa using hk')
    rcases hsplit with hk' | rfl
    · rcases mapM_lookupE_mem_ok mapw hms hk' with ⟨v, hv⟩
      rw [hv] at hmiss
      cases hmiss
    · rw [h17] at hmiss
      cases hmiss

theorem forall₂_wavelength_filter {P : ℚ → SunMap → Prop} :
    ∀ {ks : List ℚ} {ms : List SunMap},
      List.Forall₂ (fun k m => m.wavelength = k ∧ P k m) ks ms → ks.Nodup →
      ∀ {k : ℚ}, k ∈ ks →
        ∃ mk, P k mk ∧ ms.filter (fun m => m.wavelength == k) = [mk] := by
  intro ks ms hf
  induction hf with
  | nil =>
    intro _ k hk
    simp at hk
  | @cons k0 m0 tl mtl hR htl ih =>
    intro hnd k hk
    obtain ⟨hw0, hP0⟩ := hR
    rcases List.mem_cons.mp hk with rfl | hk'
    · refine ⟨m0, hP0, ?_⟩
      rw [List.filter_cons, if_pos (by simp [hw0])]
      have htl_nil : mtl.filter (fun m => m.wavelength == k) = [] := by
        rw [List.filter_eq_nil_iff]
        intro m hm
        rcases mem_right_of_forall₂ htl hm with ⟨k', hk', hR'⟩
        simp only [beq_iff_eq, hR'.1]
        exact fun he => (List.nodup_cons.mp hnd).1 (he ▸ hk')
      rw [htl_nil]
    · have hne : ¬(m0.wavelength == k) = true := by
        simp only [beq_iff_eq, hw0]
        exact fun he => (List.nodup_cons.mp hnd).1 (he ▸ hk')
      rw [List.filter_cons, if_neg hne]
      exact ih (List.nodup_cons.mp hnd).2 hk'

/-- Claim C5 core: when the crop stage succeeds and the `mapw` dictionary is
keyed consistently (each stored map's wavelength equals its key, as the
comprehension on line 55 guarantees), every non-final ordering wavelength is
cropped to the fixed box `(bx, by, w, h)` and `1700` alone is cropped to the
larger `(-1000, 1000) × (-1000, 1000)` region. -/
theorem cropStage_ok_submaps (mapw maps : Dict SunMap)
    (hw : ∀ p ∈ mapw, (Prod.snd p).wavelength = p.1)
    (hok : cropStage mapw = .ok maps) :
    (∀ k ∈ sorted_wavelengths.dropLast,
      dget? maps k = (dget? mapw k).map
        (fun m => m.submap (bx, bx + w) (byy, byy + h))) ∧
    dget? maps 1700 = (dget? mapw 1700).map
      (fun m => m.submap (-1000, 1000) (-1000, 1000)) := by
  rcases cropStage_ok_parts hok with ⟨ms, m1700, hms, h17, rfl⟩
  have hf : List.Forall₂ (fun k m => SunMap.wavelength m = k ∧ dget? mapw k = some m)
      sorted_wavelengths.dropLast ms := by
    refine List.Forall₂.imp ?_ (mapM_lookupE_ok mapw _ _ hms)
    intro k m hkm
    exact ⟨hw (k, m) (dget?_mem hkm), hkm⟩
  have hnd : sorted_wavelengths.dropLast.Nodup := by decide
  constructor
  · intro k hk
    have hne : k ≠ 1700 := by
      intro he
      subst he
      exact absurd hk (by decide)
    rw [dget?_dinsert_ne _ _ hne, dget?_foldl_dinsert]
    rcases forall₂_wavelength_filter hf hnd hk with ⟨mk, hmk, hfil⟩
    rw [hfil, hmk]
    rfl
  · rw [dget?_dinsert_self, h17]
    rfl

/-! ### Analysis of the render stage -/

theorem renderStage_ok_parts {maps : Dict SunMap} {fig : List DrawCmd}
    (hok : renderStage maps = .ok fig) :
    ∃ (plots : List (List DrawCmd)) (ax6173 axLast : Rect),
      (dkeys maps).mapM (mapwplot maps) = .ok plots ∧
      dget? axes 6173 = some ax6173 ∧
      dget? axes (sorted_wavelengths.getLastD 0) = some axLast ∧
      fig = plots.flatten
        ++ ((axes.map Prod.snd).map DrawCmd.clearTicksX
            ++ (axes.map Prod.snd).map DrawCmd.clearTicksY)
        ++ [DrawCmd.text ax6173 (bx + label_padx) (byy + label_padx)
              Label.losMagneticField]
        ++ [DrawCmd.text axLast (-950) (-990) (Label.nmLatex 1700)]
        ++ [DrawCmd.addRect axLast bx byy w h false] := by
  unfold renderStage at hok
  cases hplots : (dkeys maps).mapM (mapwplot maps) with
  | error e =>
    rw [hplots, error_bind] at hok
    exact absurd hok (by simp)
  | ok plots =>
    rw [hplots, ok_bind] at hok
    cases h6 : lookupE axes 6173 with
    | error e =>
      rw [h6, error_bind] at hok
      exact absurd hok (by simp)
    | ok ax6173 =>
      rw [h6, ok_bind] at hok
      cases hL : lookupE axes (sorted_wavelengths.getLastD 0) with
      | error e =>
        rw [hL, error_bind] at hok
        exact absurd hok (by simp)
      | ok axLast =>
        rw [hL, ok_bind, pure_eq_ok] at hok
        cases hok
        exact ⟨plots, ax6173, axLast, rfl, lookupE_ok.mp h6, lookupE_ok.mp hL, rfl⟩

theorem mapwplot_ok_parts {maps : Dict SunMap} {key : ℚ} {cmds : List DrawCmd}
    (hok : mapwplot maps key = .ok cmds) :
    ∃ (ax : Rect) (m : SunMap), dget? axes key = some ax ∧ dget? maps key = some m ∧
      ((key = 6173 ∨ key = sorted_wavelengths.getLastD 0) ∧
        cmds = [DrawCmd.imshow ax m.data m.cmap m.mpl_color_normalizer
          (m.xrange, m.yrange)]
      ∨ ¬(key = 6173 ∨ key = sorted_wavelengths.getLastD 0) ∧
        cmds = [DrawCmd.imshow ax m.data m.cmap m.mpl_color_normalizer
            (m.xrange, m.yrange),
          DrawCmd.text ax (bx + label_padx) (byy + label_pady)
            (Label.nmLatex key)]) := by
  unfold mapwplot at hok
  cases hax : lookupE axes key with
  | error e =>
    rw [hax, error_bind] at hok
    exact absurd hok (by simp)
  | ok ax =>
    rw [hax, ok_bind] at hok
    cases hm : lookupE maps key with
    | error e =>
      rw [hm, error_bind] at hok
      exact absurd hok (by simp)
    | ok m =>
      rw [hm, ok_bind] at hok
      refine ⟨ax, m, lookupE_ok.mp hax, lookupE_ok.mp hm, ?_⟩
      by_cases hcond : key = 6173 ∨ key = sorted_wavelengths.getLastD 0
      · rw [if_pos hcond, pure_eq_ok] at hok
        cases hok
        exact Or.inl ⟨hcond, rfl⟩
      · rw [if_neg hcond, pure_eq_ok] at hok
        cases hok
        exact Or.inr ⟨hcond, rfl⟩

theorem sorted_wavelengths_getLastD : sorted_wavelengths.getLastD 0 = 1700 := rfl

unseal Rat.add Rat.mul Rat.sub Rat.inv Rat.ofScientific in
theorem axes_at_6173 : dget? axes 6173 = some bottomRightRect := by decide

unseal Rat.add Rat.mul Rat.sub Rat.inv Rat.ofScientific in
theorem axes_at_last : dget? axes (sorted_wavelengths.getLastD 0) = some centreRect := by
  decide

theorem imshowRegions_append (a b : List DrawCmd) :
    imshowRegions (a ++ b) = imshowRegions a ++ imshowRegions b :=
  List.filterMap_append a b _

theorem imshowRegions_mapwplot {maps : Dict SunMap} {key : ℚ} {cmds : List DrawCmd}
    (hok : mapwplot maps key = .ok cmds) :
    ∃ ax : Rect, imshowRegions cmds = [ax] := by
  rcases mapwplot_ok_parts hok with ⟨ax, m, _, _, hshape⟩
  refine ⟨ax, ?_⟩
  rcases hshape with ⟨_, rfl⟩ | ⟨_, rfl⟩ <;> rfl

theorem imshowRegions_flatten_plots {maps : Dict SunMap} :
    ∀ {ks : List ℚ} {plots : List (List DrawCmd)},
      List.Forall₂ (fun k cmds => mapwplot maps k = .ok cmds) ks plots →
      (imshowRegions plots.flatten).length = ks.length := by
  intro ks plots hf
  induction hf with
  | nil => rfl
  | cons hR htl ih =>
    rcases imshowRegions_mapwplot hR with ⟨ax, hax⟩
    simp only [List.flatten_cons, imshowRegions_append, List.length_append, hax,
      List.length_cons, List.length_singleton, List.length_nil, ih]
    omega

theorem imshowRegions_tail_nil (ax6173 axLast : Rect) :
    imshowRegions (((axes.map Prod.snd).map DrawCmd.clearTicksX
        ++ (axes.map Prod.snd).map DrawCmd.clearTicksY)
      ++ [DrawCmd.text ax6173 (bx + label_padx) (byy + label_padx)
            Label.losMagneticField]
      ++ [DrawCmd.text axLast (-950) (-990) (Label.nmLatex 1700)]
      ++ [DrawCmd.addRect axLast bx byy w h false]) = [] := by
  simp only [imshowRegions, List.filterMap_eq_nil_iff]
  intro c hc
  simp only [List.mem_append, List.mem_map, List.mem_singleton] at hc
  rcases hc with (((⟨r, _, rfl⟩ | ⟨r, _, rfl⟩) | rfl) | rfl) | rfl <;> rfl

/-- Claim C2 core: when the render stage succeeds, every key of the
cropped-map dictionary gets its own image-draw call, issued with that map's
own colour map and normalizer into that key's region, and the figure holds
exactly one image-draw per key. -/
theorem render_draws_each_key (maps : Dict SunMap) (fig : List DrawCmd)
    (hok : renderStage maps = .ok fig) :
    (∀ k ∈ dkeys maps, ∃ (ax : Rect) (m : SunMap),
        dget? axes k = some ax ∧ dget? maps k = some m ∧
        DrawCmd.imshow ax m.data m.cmap m.mpl_color_normalizer
          (m.xrange, m.yrange) ∈ fig) ∧
    (imshowRegions fig).length = (dkeys maps).length := by
  rcases renderStage_ok_parts hok with ⟨plots, ax6173, axLast, hplots, _, _, rfl⟩
  have hf := mapM_ok_forall₂ (mapwplot maps) _ _ hplots
  constructor
  · intro k hk
    rcases forall₂_mem_zip hf hk with ⟨cmds, hzip, hcmds⟩
    rcases mapwplot_ok_parts hcmds with ⟨ax, m, hax, hm, hshape⟩
    refine ⟨ax, m, hax, hm, ?_⟩
    have hcm : cmds ∈ plots := (List.of_mem_zip hzip).2
    have himg : DrawCmd.imshow ax m.data m.cmap m.mpl_color_normalizer
        (m.xrange, m.yrange) ∈ cmds := by
      rcases hshape with ⟨_, rfl⟩ | ⟨_, rfl⟩ <;> simp
    have hfl : DrawCmd.imshow ax m.data m.cmap m.mpl_color_normalizer
        (m.xrange, m.yrange) ∈ plots.flatten := List.mem_flatten.mpr ⟨cmds, hcm, himg⟩
    simp only [List.append_assoc, List.mem_append]
    exact Or.inl hfl
  · have htail := imshowRegions_tail_nil ax6173 axLast
    rw [show plots.flatten
          ++ ((axes.map Prod.snd).map DrawCmd.clearTicksX
              ++ (axes.map Prod.snd).map DrawCmd.clearTicksY)
          ++ [DrawCmd.text ax6173 (bx + label_padx) (byy + label_padx)
                Label.losMagneticField]
          ++ [DrawCmd.text axLast (-950) (-990) (Label.nmLatex 1700)]
          ++ [DrawCmd.addRect axLast bx byy w h false]
        = plots.flatten
          ++ (((axes.map Prod.snd).map DrawCmd.clearTicksX
              ++ (axes.map Prod.snd).map DrawCmd.clearTicksY)
            ++ [DrawCmd.text ax6173 (bx + label_padx) (byy + label_padx)
                  Label.losMagneticField]
            ++ [DrawCmd.text axLast (-950) (-990) (Label.nmLatex 1700)]
            ++ [DrawCmd.addRect axLast bx byy w h false]) by
      simp [List.append_assoc]]
    rw [imshowRegions_append, htail, List.append_nil]
    exact imshowRegions_flatten_plots hf

/-- Claim C8 core: when the render stage succeeds, the unfilled rectangle
with corner `(bx, by) = (-300, -150)`, width `600` and height `300` is added
to the region assigned to the last ordering wavelength — the centre region. -/
theorem crop_rectangle_on_main (maps : Dict SunMap) (fig : List DrawCmd)
    (hok : renderStage maps = .ok fig) :
    dget? axes (sorted_wavelengths.getLastD 0) = some centreRect ∧
    DrawCmd.addRect centreRect bx byy w h false ∈ fig ∧
    bx = -300 ∧ byy = -150 ∧ w = 600 ∧ h = 300 := by
  rcases renderStage_ok_parts hok with ⟨plots, ax6173, axLast, _, _, hL, rfl⟩
  have haxL : axLast = centreRect := by
    have h2 := axes_at_last.symm.trans hL
    exact ((Option.some.injEq _ _).mp h2).symm
  subst haxL
  refine ⟨axes_at_last, ?_, rfl, rfl, rfl, rfl⟩
  simp [List.mem_append]

/-- Every text command of a successfully rendered figure is either a generic
per-wavelength label (for a non-special key of `maps`), the custom
`LOS Magnetic Field` label on the bottom-right region, or the custom 1700 Å
label on the centre region. -/
theorem text_events_of_render {maps : Dict SunMap} {fig : List DrawCmd}
    (hok : renderStage maps = .ok fig) {ax : Rect} {x y : ℚ} {lab : Label}
    (hmem : DrawCmd.text ax x y lab ∈ fig) :
    (∃ k ∈ dkeys maps, ¬(k = 6173 ∨ k = sorted_wavelengths.getLastD 0) ∧
      dget? axes k = some ax ∧ x = bx + label_padx ∧ y = byy + label_pady ∧
      lab = Label.nmLatex k)
    ∨ (ax = bottomRightRect ∧ x = bx + label_padx ∧ y = byy + label_padx ∧
      lab = Label.losMagneticField)
    ∨ (ax = centreRect ∧ x = -950 ∧ y = -990 ∧ lab = Label.nmLatex 1700) := by
  rcases renderStage_ok_parts hok with ⟨plots, ax6173, axLast, hplots, h6, hL, rfl⟩
  have hf := mapM_ok_forall₂ (mapwplot maps) _ _ hplots
  have hax6 : ax6173 = bottomRightRect := by
    have h2 := axes_at_6173.symm.trans h6
    exact ((Option.some.injEq _ _).mp h2).symm
  have haxL : axLast = centreRect := by
    have h2 := axes_at_last.symm.trans hL
    exact ((Option.some.injEq _ _).mp h2).symm
  subst hax6 haxL
  rcases List.mem_append.mp hmem with hmem1 | hr
  rotate_left
  · exact absurd (List.mem_singleton.mp hr) (by simp)
  rcases List.mem_append.mp hmem1 with hmem2 | ht2
  rotate_left
  · obtain ⟨hax, hx, hy, hlab⟩ :=
      (DrawCmd.text.injEq _ _ _ _ _ _ _ _).mp (List.mem_singleton.mp ht2)
    exact Or.inr (Or.inr ⟨hax, hx, hy, hlab⟩)
  rcases List.mem_append.mp hmem2 with hmem3 | ht1
  rotate_left
  · obtain ⟨hax, hx, hy, hlab⟩ :=
      (DrawCmd.text.injEq _ _ _ _ _ _ _ _).mp (List.mem_singleton.mp ht1)
    exact Or.inr (Or.inl ⟨hax, hx, hy, hlab⟩)
  rcases List.mem_append.mp hmem3 with hfl | htk
  rotate_left
  · rcases List.mem_append.mp htk with ht | ht <;>
      · rcases List.mem_map.mp ht with ⟨r, _, he⟩
        exact absurd he.symm (by simp)
  · rcases List.mem_flatten.mp hfl with ⟨cmds, hcm, hc⟩
    rcases mem_right_of_forall₂ hf hcm with ⟨k', hk', hok'⟩
    rcases mapwplot_ok_parts hok' with ⟨ax', m', hax', _, hshape⟩
    rcases hshape with ⟨_, rfl⟩ | ⟨hcond, rfl⟩
    · simp at hc
    · simp only [List.mem_cons, List.not_mem_nil, or_false] at hc
      rcases hc with hc | hc
      · exact absurd hc (by simp)
      · obtain ⟨hax, hx, hy, hlab⟩ := (DrawCmd.text.injEq _ _ _ _ _ _ _ _).mp hc
        exact Or.inl ⟨k', hk', hcond, hax ▸ hax', hx, hy, hlab⟩

/-- Claim C6 core: when the render stage succeeds, every key of the
cropped-map dictionary other than `6173.0` and the last ordering entry
(`1700`) receives the generic wavelength label at
`(bx + label_padx, by + label_pady)` in its own region; the `6173.0` region
always receives the custom `LOS Magnetic Field` label and never a generic
label, and the `1700` centre region always receives the custom 1700 Å label
and never the generic label. -/
theorem wavelength_labels (maps : Dict SunMap) (fig : List DrawCmd)
    (hok : renderStage maps = .ok fig) :
    (∀ k ∈ dkeys maps, k ≠ 6173 → k ≠ 1700 →
      ∃ ax : Rect, dget? axes k = some ax ∧
        DrawCmd.text ax (bx + label_padx) (byy + label_pady)
          (Label.nmLatex k) ∈ fig) ∧
    (DrawCmd.text bottomRightRect (bx + label_padx) (byy + label_padx)
        Label.losMagneticField ∈ fig ∧
      ∀ (ax : Rect) (x y : ℚ), DrawCmd.text ax x y (Label.nmLatex 6173) ∉ fig) ∧
    (DrawCmd.text centreRect (-950) (-990) (Label.nmLatex 1700) ∈ fig ∧
      ∀ ax : Rect, DrawCmd.text ax (bx + label_padx) (byy + label_pady)
          (Label.nmLatex 1700) ∉ fig) := by
  refine ⟨?_, ⟨?_, ?_⟩, ⟨?_, ?_⟩⟩
  · intro k hk h6k h17k
    rcases renderStage_ok_parts hok with ⟨plots, ax6173, axLast, hplots, _, _, rfl⟩
    have hf := mapM_ok_forall₂ (mapwplot maps) _ _ hplots
    rcases forall₂_mem_zip hf hk with ⟨cmds, hzip, hcmds⟩
    rcases mapwplot_ok_parts hcmds with ⟨ax, m, hax, _, hshape⟩
    refine ⟨ax, hax, ?_⟩
    rcases hshape with ⟨hcond, rfl⟩ | ⟨_, rfl⟩
    · rcases hcond with hcc | hcc
      · exact absurd hcc h6k
      · exact absurd (hcc.trans sorted_wavelengths_getLastD) h17k
    · have hcm := (List.of_mem_zip hzip).2
      have hfl : DrawCmd.text ax (bx + label_padx) (byy + label_pady)
          (Label.nmLatex k) ∈ plots.flatten :=
        List.mem_flatten.mpr ⟨_, hcm, by simp⟩
      simp only [List.append_assoc, List.mem_append]
      exact Or.inl hfl
  · rcases renderStage_ok_parts hok with ⟨plots, ax6173, axLast, hplots, h6, hL, rfl⟩
    have hax6 : ax6173 = bottomRightRect := by
      have h2 := axes_at_6173.symm.trans h6
      exact ((Option.some.injEq _ _).mp h2).symm
    subst hax6
    simp [List.mem_append]
  · intro ax x y hmem
    rcases text_events_of_render hok hmem with
      ⟨k, _, hcond, _, _, _, hlab⟩ | ⟨_, _, _, hlab⟩ | ⟨_, _, _, hlab⟩
    · exact hcond (Or.inl ((Label.nmLatex.injEq _ _).mp hlab.symm))
    · exact Label.noConfusion hlab
    · have : (6173 : ℚ) = 1700 := (Label.nmLatex.injEq _ _).mp hlab
      norm_num at this
  · rcases renderStage_ok_parts hok with ⟨plots, ax6173, axLast, hplots, h6, hL, rfl⟩
    have haxL : axLast = centreRect := by
      have h2 := axes_at_last.symm.trans hL
      exact ((Option.some.injEq _ _).mp h2).symm
    subst haxL
    simp [List.mem_append]
  · intro ax hmem
    rcases text_events_of_render hok hmem with
      ⟨k, _, hcond, _, _, _, hlab⟩ | ⟨_, _, _, hlab⟩ | ⟨_, _, hy, _⟩
    · refine hcond (Or.inr ?_)
      rw [sorted_wavelengths_getLastD]
      exact (Label.nmLatex.injEq _ _).mp hlab.symm
    · exact Label.noConfusion hlab
    · have : byy + label_pady = (-990 : ℚ) := hy
      rw [byy, label_pady] at this
      norm_num at this

/-! ### The `mapw` dictionary (claim C10) and the axes assignment (claims C3, C9) -/

theorem dkeys_foldl_dinsert_nodup (aias : List SunMap) :
    ∀ d : Dict SunMap, (dkeys d).Nodup →
      (dkeys (aias.foldl (fun d m => dinsert d m.wavelength (m.rotate 3)) d)).Nodup := by
  induction aias with
  | nil => exact fun d hd => hd
  | cons m tl ih =>
    intro d hd
    exact ih _ (dkeys_dinsert_nodup _ _ _ hd)

/-- C10 core: `mapw` holds at most one map per wavelength (its key list has
no duplicates); key `6173.0` always holds the rotated HMI map (the final
`update` overwrites anything stored there); and any other key holds the
rotation of the *last* loaded AIA map with that wavelength, earlier ones
being silently overwritten. -/
theorem mapw_entries (aias : List SunMap) (hmi : SunMap) :
    (dkeys (mapwOf aias hmi)).Nodup ∧
    ∀ k : ℚ, dget? (mapwOf aias hmi) k =
      if k = 6173 then some (hmi.rotate 3)
      else ((aias.filter (fun m => m.wavelength == k)).getLast?).map
        (fun m => m.rotate 3) := by
  constructor
  · exact dkeys_dinsert_nodup _ _ _
      (dkeys_foldl_dinsert_nodup aias [] (by simp [dkeys]))
  · intro k
    unfold mapwOf
    by_cases h6 : k = 6173
    · subst h6
      rw [dget?_dinsert_self, if_pos rfl]
    · rw [dget?_dinsert_ne _ _ h6, if_neg h6,
        dget?_foldl_dinsert (fun m => m.rotate 3) aias [] k]
      cases hl : (aias.filter (fun m => m.wavelength == k)).getLast? with
      | some m => rfl
      | none => rfl

unseal Rat.add Rat.mul Rat.sub Rat.inv Rat.ofScientific in
theorem allAxesRects_eq_spec : allAxesRects = specRegionRects := by decide

theorem rectsSeparated_interiors_disjoint (r s : Rect) (hsep : rectsSeparated r s)
    (p : ℚ × ℚ) : ¬(inOpenRect r p ∧ inOpenRect s p) := by
  rintro ⟨⟨h1, h2, h3, h4⟩, h5, h6, h7, h8⟩
  rcases hsep with hs | hs | hs | hs <;> linarith

unseal Rat.add Rat.mul Rat.sub Rat.inv Rat.ofScientific in
theorem regions_pairwise_separated : List.Pairwise rectsSeparated allAxesRects := by
  decide

theorem regions_cover (p : ℚ × ℚ) (h1 : 0 ≤ p.1) (h2 : p.1 ≤ 1) (h3 : 0 ≤ p.2)
    (h4 : p.2 ≤ 1) : ∃ r ∈ allAxesRects, inClosedRect r p := by
  rw [allAxesRects_eq_spec]
  rcases le_or_lt p.1 (1/4) with hx | hx
  · rcases le_or_lt p.2 (1/4) with hy | hy
    · exact ⟨⟨0, 0, 1/4, 1/4⟩, by simp [specRegionRects],
        h1, by linarith, h3, by linarith⟩
    · rcases le_or_lt p.2 (1/2) with hy2 | hy2
      · exact ⟨⟨0, 1/4, 1/4, 1/4⟩, by simp [specRegionRects],
          h1, by linarith, by linarith, by linarith⟩
      · rcases le_or_lt p.2 (3/4) with hy3 | hy3
        · exact ⟨⟨0, 1/2, 1/4, 1/4⟩, by simp [specRegionRects],
            h1, by linarith, by linarith, by linarith⟩
        · exact ⟨⟨0, 3/4, 1/4, 1/4⟩, by simp [specRegionRects],
            h1, by linarith, by linarith, by linarith⟩
  · rcases le_or_lt (3/4 : ℚ) p.1 with hx' | hx'
    · rcases le_or_lt p.2 (1/4) with hy | hy
      · exact ⟨⟨3/4, 0, 1/4, 1/4⟩, by simp [specRegionRects],
          hx', by linarith, h3, by linarith⟩
      · rcases le_or_lt p.2 (1/2) with hy2 | hy2
        · exact ⟨⟨3/4, 1/4, 1/4, 1/4⟩, by simp [specRegionRects],
            hx', by linarith, by linarith, by linarith⟩
        · rcases le_or_lt p.2 (3/4) with hy3 | hy3
          · exact ⟨⟨3/4, 1/2, 1/4, 1/4⟩, by simp [specRegionRects],
              hx', by linarith, by linarith, by linarith⟩
          · exact ⟨⟨3/4, 3/4, 1/4, 1/4⟩, by simp [specRegionRects],
              hx', by linarith, by linarith, by linarith⟩
    · exact ⟨⟨1/4, 0, 1/2, 1⟩, by simp [specRegionRects],
        by linarith, by linarith, h3, by linarith⟩

theorem regions_inside_unit_square (r : Rect) (hr : r ∈ allAxesRects) (p : ℚ × ℚ)
    (hp : inClosedRect r p) : 0 ≤ p.1 ∧ p.1 ≤ 1 ∧ 0 ≤ p.2 ∧ p.2 ≤ 1 := by
  rw [allAxesRects_eq_spec] at hr
  obtain ⟨a, b, c, d⟩ := hp
  fin_cases hr <;> simp only at a b c d <;>
    exact ⟨by linarith, by linarith, by linarith, by linarith⟩

/-! ### Claim theorems -/

unseal Rat.add Rat.mul Rat.sub Rat.inv Rat.ofScientific in
/-- Claim C1 (counterexample): in an end-to-end run on nine synthetic solid-colour
maps with all 9 expected wavelengths present, the centre region's image
content is the cropped 1700 Å main-disk data, which differs from the HMI
crop data — the HMI content is drawn in the bottom-right edge region, not in
the centre as the claim states. -/
theorem claim1_counterexample :
    pipeline testAias testHmi = .ok testFig ∧
    imshowDataAt testFig centreRect = [testAia1700CropData] ∧
    testAia1700CropData ≠ testHmiCropData ∧
    (∀ g ∈ imshowDataAt testFig centreRect, g ≠ testHmiCropData) ∧
    imshowDataAt testFig bottomRightRect = [testHmiCropData] := by
  decide

unseal Rat.add Rat.mul Rat.sub Rat.inv Rat.ofScientific in
/-- Claim C1 (amended): for an end-to-end run with all 9 expected wavelength files
present, the rendered figure contains exactly 9 distinct image regions (the
four left-edge, four right-edge and centre regions); the centre region
contains the 1700 Å main-disk image content and the HMI (6173.0 Å
line-of-sight magnetic field) content is drawn in the bottom-right edge
region, with the other images arranged on the edges. -/
theorem claim1_amended :
    pipeline testAias testHmi = .ok testFig ∧
    (imshowRegions testFig).length = 9 ∧
    (imshowRegions testFig).Nodup ∧
    imshowRegions testFig = allAxesRects ∧
    imshowDataAt testFig centreRect = [testAia1700CropData] ∧
    imshowDataAt testFig bottomRightRect = [testHmiCropData] := by
  decide

unseal Rat.add Rat.mul Rat.sub Rat.inv Rat.ofScientific in
/-- Claim C2 (witness): the general drawing theorem applied to the synthetic run. -/
theorem claim2_witness :
    renderStage testMaps = .ok testFig ∧
    ((∀ k ∈ dkeys testMaps, ∃ (ax : Rect) (m : SunMap),
        dget? axes k = some ax ∧ dget? testMaps k = some m ∧
        DrawCmd.imshow ax m.data m.cmap m.mpl_color_normalizer
          (m.xrange, m.yrange) ∈ testFig) ∧
      (imshowRegions testFig).length = (dkeys testMaps).length) :=
  ⟨by decide, render_draws_each_key testMaps testFig (by decide)⟩

unseal Rat.add Rat.mul Rat.sub Rat.inv Rat.ofScientific in
/-- Claim C3 (counterexample): appending a 10th wavelength (999) to the ordering
list is not rejected: the zip-built assignment is constructed without error,
holds the same 9 entries as before, and silently has no region at all for
the extra wavelength. -/
theorem claim3_counterexample :
    axesOf (sorted_wavelengths ++ [999]) = axes ∧
    dget? (axesOf (sorted_wavelengths ++ [999])) 999 = none ∧
    (axesOf (sorted_wavelengths ++ [999])).length = 9 ∧
    (sorted_wavelengths ++ [999]).length = 10 := by
  decide

/-- Claim C3 (amended): if the wavelength ordering list has more entries than the 9
allocated plot regions, the extra wavelength is silently dropped by the `zip`
(the assignment is built without error and equals the 9-entry assignment);
for the shipped configuration the ordering list and the generated region
list both have exactly 9 entries. -/
theorem claim3_amended :
    (∀ extra : ℚ, axesOf (sorted_wavelengths ++ [extra]) = axes) ∧
    sorted_wavelengths.length = allAxesRects.length ∧
    sorted_wavelengths.length = 9 :=
  ⟨fun _ => rfl, rfl, rfl⟩

unseal Rat.add Rat.mul Rat.sub Rat.inv Rat.ofScientific in
/-- Claim C4 (witness): with no AIA files loaded, wavelength 335 is missing from
`mapw` and the crop stage errors out, aborting the pipeline. -/
theorem claim4_witness :
    (335 : ℚ) ∈ sorted_wavelengths ∧ dget? (mapwOf [] testHmi) 335 = none ∧
    ∃ e, cropStage (mapwOf [] testHmi) = .error e ∧
      ∀ (aias : List SunMap) (hmi : SunMap),
        mapwOf aias hmi = mapwOf [] testHmi →
        pipeline aias hmi = .error e :=
  ⟨by decide, by decide,
    cropStage_missing_key_error (mapwOf [] testHmi) 335 (by decide) (by decide)⟩

unseal Rat.add Rat.mul Rat.sub Rat.inv Rat.ofScientific in
/-- Claim C5 (witness): the general cropping theorem applied to the synthetic run. -/
theorem claim5_witness :
    (∀ p ∈ mapwOf testAias testHmi, (Prod.snd p).wavelength = p.1) ∧
    cropStage (mapwOf testAias testHmi) = .ok testMaps ∧
    ((∀ k ∈ sorted_wavelengths.dropLast,
        dget? testMaps k = (dget? (mapwOf testAias testHmi) k).map
          (fun m => m.submap (bx, bx + w) (byy, byy + h))) ∧
      dget? testMaps 1700 = (dget? (mapwOf testAias testHmi) 1700).map
        (fun m => m.submap (-1000, 1000) (-1000, 1000))) :=
  ⟨by decide, by decide,
    cropStage_ok_submaps (mapwOf testAias testHmi) testMaps (by decide) (by decide)⟩

unseal Rat.add Rat.mul Rat.sub Rat.inv Rat.ofScientific in
/-- Claim C6 (witness): the general labelling theorem applied to the synthetic run. -/
theorem claim6_witness :
    renderStage testMaps = .ok testFig ∧
    ((∀ k ∈ dkeys testMaps, k ≠ 6173 → k ≠ 1700 →
      ∃ ax : Rect, dget? axes k = some ax ∧
        DrawCmd.text ax (bx + label_padx) (byy + label_pady)
          (Label.nmLatex k) ∈ testFig) ∧
    (DrawCmd.text bottomRightRect (bx + label_padx) (byy + label_padx)
        Label.losMagneticField ∈ testFig ∧
      ∀ (ax : Rect) (x y : ℚ),
        DrawCmd.text ax x y (Label.nmLatex 6173) ∉ testFig) ∧
    (DrawCmd.text centreRect (-950) (-990) (Label.nmLatex 1700) ∈ testFig ∧
      ∀ ax : Rect, DrawCmd.text ax (bx + label_padx) (byy + label_pady)
          (Label.nmLatex 1700) ∉ testFig)) :=
  ⟨by decide, wavelength_labels testMaps testFig (by decide)⟩

/-- Claim C7: cropping with the fixed crop box `(bx, by, w, h)` is idempotent for
any map with positive pixel scales: applying the submap twice yields
identical pixel data and identical coordinate bounds (`xrange`/`yrange`) to
applying it once. -/
theorem claim7 (m : SunMap) (hx : 0 < m.cdelt1) (hy : 0 < m.cdelt2) :
    ((m.submap (bx, bx + w) (byy, byy + h)).submap
        (bx, bx + w) (byy, byy + h)).data
      = (m.submap (bx, bx + w) (byy, byy + h)).data ∧
    ((m.submap (bx, bx + w) (byy, byy + h)).submap
        (bx, bx + w) (byy, byy + h)).xrange
      = (m.submap (bx, bx + w) (byy, byy + h)).xrange ∧
    ((m.submap (bx, bx + w) (byy, byy + h)).submap
        (bx, bx + w) (byy, byy + h)).yrange
      = (m.submap (bx, bx + w) (byy, byy + h)).yrange := by
  have he := submap_submap m hx hy
    (show bx ≤ bx + w by norm_num [bx, w])
    (show byy ≤ byy + h by norm_num [byy, h])
  rw [he]
  exact ⟨rfl, rfl, rfl⟩

/-- Claim C7 (witness): idempotence at the synthetic HMI map. -/
theorem claim7_witness :
    0 < testHmi.cdelt1 ∧ 0 < testHmi.cdelt2 ∧
    (((testHmi.submap (bx, bx + w) (byy, byy + h)).submap
          (bx, bx + w) (byy, byy + h)).data
        = (testHmi.submap (bx, bx + w) (byy, byy + h)).data ∧
      ((testHmi.submap (bx, bx + w) (byy, byy + h)).submap
          (bx, bx + w) (byy, byy + h)).xrange
        = (testHmi.submap (bx, bx + w) (byy, byy + h)).xrange ∧
      ((testHmi.submap (bx, bx + w) (byy, byy + h)).submap
          (bx, bx + w) (byy, byy + h)).yrange
        = (testHmi.submap (bx, bx + w) (byy, byy + h)).yrange) :=
  ⟨by decide, by decide, claim7 testHmi (by decide) (by decide)⟩

unseal Rat.add Rat.mul Rat.sub Rat.inv Rat.ofScientific in
/-- Claim C8 (witness): the general rectangle theorem applied to the synthetic run. -/
theorem claim8_witness :
    renderStage testMaps = .ok testFig ∧
    (dget? axes (sorted_wavelengths.getLastD 0) = some centreRect ∧
      DrawCmd.addRect centreRect bx byy w h false ∈ testFig ∧
      bx = -300 ∧ byy = -150 ∧ w = 600 ∧ h = 300) :=
  ⟨by decide, crop_rectangle_on_main testMaps testFig (by decide)⟩

/-- Claim C9: the 9 allocated plot regions are exactly the four left-edge squares
`[0, 1/4] × [i/4, (i+1)/4]` (bottom to top), the four right-edge squares
`[3/4, 1] × [i/4, (i+1)/4]`, and the centre region `[1/4, 3/4] × [0, 1]`;
their interiors are pairwise disjoint and their closures exactly tile the
unit figure square. -/
theorem claim9 :
    allAxesRects = specRegionRects ∧
    List.Pairwise (fun r s => ∀ p : ℚ × ℚ,
      ¬(inOpenRect r p ∧ inOpenRect s p)) allAxesRects ∧
    (∀ p : ℚ × ℚ, 0 ≤ p.1 → p.1 ≤ 1 → 0 ≤ p.2 → p.2 ≤ 1 →
      ∃ r ∈ allAxesRects, inClosedRect r p) ∧
    (∀ r ∈ allAxesRects, ∀ p : ℚ × ℚ, inClosedRect r p →
      0 ≤ p.1 ∧ p.1 ≤ 1 ∧ 0 ≤ p.2 ∧ p.2 ≤ 1) := by
  refine ⟨allAxesRects_eq_spec, ?_, regions_cover, regions_inside_unit_square⟩
  refine regions_pairwise_separated.imp ?_
  intro a b hsep p
  exact rectsSeparated_interiors_disjoint a b hsep p

/-- Claim C9 (witness): the tiling theorem instantiated at the point (1/8, 1/8). -/
theorem claim9_witness :
    (0 : ℚ) ≤ 1/8 ∧ (1/8 : ℚ) ≤ 1 ∧
    ∃ r ∈ allAxesRects, inClosedRect r (1/8, 1/8) :=
  ⟨by norm_num, by norm_num,
    claim9.2.2.1 (1/8, 1/8) (by norm_num) (by norm_num) (by norm_num) (by norm_num)⟩

end AiaAll
